import Mathlib

/-!
Shallow embedding of the henhouse bucket engine (`db/timeline.cpp`) and proofs
about it.  Machine integers (`time_type`, `count_type`, `offset_type`, the
`u64` record fields) are modelled as `Nat`; the floating point `mean_type` is
modelled as `ℚ`, so the division in `diff_buckets` is exact.  The fatal
`REQUIRE` precondition failures of the source are modelled as `Option.none`.
-/

namespace henhouse

/-- A record of the data vector (`data_item`): the raw count accumulated in a
bucket together with the cumulative sum of values and of squared values from
bucket 0 through this bucket. -/
structure data_item where
  value : Nat
  integral : Nat
  second_integral : Nat
deriving DecidableEq, Repr

/-- The all-zero bucket `{0, 0, 0}` used by the source for synthetic reads. -/
def zero_item : data_item := ⟨0, 0, 0⟩

/-- A record of the sparse index (`index_item`): an anchor mapping a wall-clock
time to the bucket position it corresponds to in the data vector. -/
structure index_item where
  time : Nat
  pos : Nat
deriving DecidableEq, Repr

/-- Result of a sparse-index lookup (`pos_result`, spec section 4.2): the
selected anchor's index, time and position, plus the residual bucket offset. -/
structure pos_result where
  index_offset : Nat
  time : Nat
  pos : Nat
  offset : Nat
deriving DecidableEq, Repr

/-- A timeline owns one data vector and one sparse index; the index metadata
header carries the resolution (`index.meta().resolution`). -/
structure timeline where
  resolution : Nat
  data : List data_item
  index : List index_item
deriving DecidableEq, Repr

/-- `ADD_BUCKET_BACK_LIMIT = 60` from the source. -/
def ADD_BUCKET_BACK_LIMIT : Nat := 60

/-- `propogate(prev, current)` from the source: turn the current non-summed
bucket into a summed bucket, keeping its `value` and recomputing the partial
sums from the previous bucket. -/
def propogate (prev current : data_item) : data_item :=
  ⟨current.value, prev.integral + current.value,
   prev.second_integral + current.value * current.value⟩

/-- `update_current(prev, current, c)` from the source: add a count `c` to the
current bucket's value and recompute its partial sums. -/
def update_current (prev current : data_item) (c : Nat) : data_item :=
  propogate prev ⟨current.value + c, current.integral, current.second_integral⟩

/-- The forward re-propagation loop of `put`
(`for(p = pos+1; p < data.size(); p++) propogate(data[p-1], data[p])`),
expressed as a fold over the suffix starting after the mutated bucket. -/
def propogate_list (prev : data_item) : List data_item → List data_item
  | [] => []
  | d :: ds => propogate prev d :: propogate_list (propogate prev d) ds

/-- Modelled from the spec: `index.find_pos_from_range(t, last_range,
index.cend())` of the sparse index component, which is not among the sources
(only its caller `timeline::put` is).  Spec section 4.2: locate the largest
anchor of the range whose `time ≤ t` with
`offset = (t - anchor.time) / resolution` clamped to the anchor's run length.
`put` always passes the one-element range holding the final anchor under the
guard `t ≥ last_anchor.time`, so the result is the final anchor with the
unclamped offset (the final anchor's run is unbounded). -/
def find_pos_from_range_last (index : List index_item) (resolution t : Nat) :
    pos_result :=
  ⟨index.length - 1, (index.getLastD ⟨0, 0⟩).time, (index.getLastD ⟨0, 0⟩).pos,
   (t - (index.getLastD ⟨0, 0⟩).time) / resolution⟩

/-- Modelled from the spec: `index.find_pos(t, hint)` of the sparse index
component, which is not among the sources (only its caller `timeline::get`
is).  Spec section 4.2: locate the largest anchor whose `time ≤ t`; the hint
only accelerates the search and does not change the result, so it is dropped.
If `t` precedes the first anchor, return the first anchor with `offset = 0`
(the caller detects this via `pos_result.time > t`).  Otherwise the offset is
`(t - anchor.time) / resolution`, clamped to the anchor's run length when a
following anchor exists (the run holds `next.pos - anchor.pos` buckets). -/
def find_pos (index : List index_item) (resolution t : Nat) : pos_result :=
  match index with
  | [] => ⟨0, 0, 0, 0⟩
  | a0 :: _ =>
    if t < a0.time then ⟨0, a0.time, a0.pos, 0⟩
    else
      let i := (index.takeWhile (fun a => decide (a.time ≤ t))).length - 1
      let a := index.getD i a0
      let off := (t - a.time) / resolution
      match index.get? (i + 1) with
      | some nxt => ⟨i, a.time, a.pos, min off (nxt.pos - a.pos - 1)⟩
      | none => ⟨i, a.time, a.pos, off⟩

/-- `clamp(r, size)` from the source: clamp the offset so that
`r.pos + r.offset < size`.  The `REQUIRE_LESS(r.pos, size)` precondition
failure (a fatal programming error) is modelled as `none`. -/
def clamp (r : pos_result) (size : Nat) : Option pos_result :=
  if r.pos < size then
    if r.pos + r.offset < size then some r
    else some ⟨r.index_offset, r.time, r.pos, size - r.pos - 1⟩
  else none

/-- `get_result` from the source: the located anchor index, the query time,
the anchor (range) time, the located position and offset, and the bucket. -/
structure get_result where
  index_offset : Nat
  query_time : Nat
  range_time : Nat
  pos : Nat
  offset : Nat
  value : data_item
deriving DecidableEq, Repr

/-- `timeline::get(t, index_offset)` from the source: locate `t`, clamp to the
data vector, and return a zero bucket when `t` precedes the located range. -/
def timeline.get (tl : timeline) (t : Nat) (index_offset : Nat) :
    Option get_result :=
  let p := find_pos tl.index tl.resolution t
  match clamp p tl.data.length with
  | none => none
  | some q =>
    some ⟨q.index_offset, t, q.time, q.pos, q.offset,
          if t < q.time then zero_item
          else tl.data.getD (q.pos + q.offset) zero_item⟩

/-- `diff_result` from the source. -/
structure diff_result where
  ta : Nat
  tb : Nat
  resolution : Nat
  index_offset : Nat
  sum : Nat
  mean : ℚ
  variance : ℚ
  n : Nat
  a : data_item
  b : data_item
deriving DecidableEq, Repr

/-- `diff_buckets` from the source: sum and second sum are the differences of
the cumulative fields, `mean = sum / n`,
`variance = second_sum / n - mean * mean`. -/
def diff_buckets (ta tb resolution index_offset : Nat) (a b : data_item)
    (n : Nat) : diff_result :=
  ⟨ta, tb, resolution, index_offset,
   b.integral - a.integral,
   ((b.integral - a.integral : Nat) : ℚ) / (n : ℚ),
   ((b.second_integral - a.second_integral : Nat) : ℚ) / (n : ℚ) -
     (((b.integral - a.integral : Nat) : ℚ) / (n : ℚ)) *
       (((b.integral - a.integral : Nat) : ℚ) / (n : ℚ)),
   n, a, b⟩

/-- `timeline::diff(a, b, index_offset)` from the source.  The two `get`
calls go through `clamp`, whose fatal precondition is modelled as `none`. -/
def timeline.diff (tl : timeline) (a0 b0 : Nat) (index_offset : Nat) :
    Option diff_result :=
  let a := if b0 < a0 then b0 else a0
  let b := if b0 < a0 then a0 else b0
  if tl.data.length = 0 then
    some ⟨a, b, tl.resolution, 0, 0, 0, 0, 0, zero_item, zero_item⟩
  else
    match tl.get a index_offset, tl.get b index_offset with
    | some ar, some br =>
      let b2 := max br.query_time br.range_time
      let a2 := min ar.query_time b2
      let n := (b2 - a2) / tl.resolution
      if n = 0 then
        some ⟨a2, b2, tl.resolution, 0, 0, 0, 0, 0, ar.value, br.value⟩
      else
        some (diff_buckets a2 b2 tl.resolution ar.index_offset ar.value
                br.value n)
    | _, _ => none

/-- `summary_result` from the source. -/
structure summary_result where
  from_time : Nat
  to_time : Nat
  resolution : Nat
  sum : Nat
  mean : ℚ
  variance : ℚ
  n : Nat
deriving DecidableEq, Repr

/-- `timeline::summary()` from the source: the empty index returns the zero
summary; `REQUIRE(!data.empty())` (fatal when the index is non-empty but the
data vector is empty, an unreachable state) is modelled as `none`. -/
def timeline.summary (tl : timeline) : Option summary_result :=
  if tl.index.length = 0 then some ⟨0, 0, tl.resolution, 0, 0, 0, 0⟩
  else if tl.data.length = 0 then none
  else
    let front := tl.index.getD 0 ⟨0, 0⟩
    let back := tl.index.getLastD ⟨0, 0⟩
    let to_time := back.time + (tl.data.length - back.pos) * tl.resolution
    let n := (to_time - front.time) / tl.resolution
    let d := diff_buckets front.time to_time tl.resolution 0 zero_item
               (tl.data.getLastD zero_item) n
    some ⟨front.time, to_time, tl.resolution, d.sum, d.mean, d.variance, n⟩

/-- The in-place bucket update and forward re-propagation of `put` when the
target bucket exists (`pos < data.size()` and within the backfill window). -/
def put_update (data : List data_item) (pos : Nat) (c : Nat) :
    List data_item :=
  let prev := if 0 < pos then data.getD (pos - 1) zero_item else zero_item
  let d1 := data.set pos (update_current prev (data.getD pos zero_item) c)
  d1.take (pos + 1) ++ propogate_list (d1.getD pos zero_item) (d1.drop (pos + 1))

/-- The append path of `put` when the target is beyond the end: push one new
bucket propagated from the last one. -/
def put_append (data : List data_item) (c : Nat) : List data_item :=
  data ++ [propogate (data.getD (data.length - 1) zero_item) ⟨c, 0, 0⟩]

/-- The target position `pos = p.pos + p.offset` resolved by `put` from the
final anchor (`p = index.find_pos_from_range(t, last_range, index.cend())`). -/
def put_target (tl : timeline) (t : Nat) : Nat :=
  (find_pos_from_range_last tl.index tl.resolution t).pos +
    (find_pos_from_range_last tl.index tl.resolution t).offset

/-- The anchor `{aliased_time, new_pos}` that `put` appends on a gap, where
`aliased_time = p.time + p.offset * resolution` and `new_pos = last_pos + 1`. -/
def put_gap_anchor (tl : timeline) (t : Nat) : index_item :=
  ⟨(find_pos_from_range_last tl.index tl.resolution t).time +
     (find_pos_from_range_last tl.index tl.resolution t).offset * tl.resolution,
   tl.data.length - 1 + 1⟩

/-- `timeline::put(t, c)` from the source, returning the accept flag together
with the (possibly unchanged) resulting state. -/
def timeline.put (tl : timeline) (t c : Nat) : Bool × timeline :=
  if 0 < tl.index.length then
    if (tl.index.getLastD ⟨0, 0⟩).time ≤ t then
      if put_target tl t < tl.data.length then
        if tl.data.length - put_target tl t < ADD_BUCKET_BACK_LIMIT then
          (true, ⟨tl.resolution, put_update tl.data (put_target tl t) c,
                  tl.index⟩)
        else (false, tl)
      else
        if put_target tl t = tl.data.length - 1 + 1 then
          (true, ⟨tl.resolution, put_append tl.data c, tl.index⟩)
        else
          (true, ⟨tl.resolution, put_append tl.data c,
                  tl.index ++ [put_gap_anchor tl t]⟩)
    else (false, tl)
  else
    (true, ⟨tl.resolution, [⟨c, c, c * c⟩], [⟨t, 0⟩]⟩)

/-- A freshly created timeline: both vectors empty, resolution configured. -/
def empty_timeline (resolution : Nat) : timeline := ⟨resolution, [], []⟩

/-- Run a sequence of `put` calls (rejected calls leave the state unchanged). -/
def apply_puts (tl : timeline) : List (Nat × Nat) → timeline
  | [] => tl
  | (t, c) :: ps => apply_puts (tl.put t c).2 ps

/-! ### List helper lemmas -/

theorem getD_set_self (l : List data_item) (n : Nat) (a d : data_item)
    (h : n < l.length) : (l.set n a).getD n d = a := by
  simp [List.getD_eq_getElem?_getD, List.getElem?_set_self, h]

theorem take_set_succ (l : List data_item) (n : Nat) (a : data_item)
    (h : n < l.length) : (l.set n a).take (n + 1) = l.take n ++ [a] := by
  induction l generalizing n with
  | nil => simp at h
  | cons x xs ih =>
    cases n with
    | zero => simp
    | succ m =>
      simp only [List.set, List.take, List.cons_append, List.cons.injEq,
        true_and]
      exact ih m (by simpa using h)

theorem drop_set_succ (l : List data_item) (n : Nat) (a : data_item) :
    (l.set n a).drop (n + 1) = l.drop (n + 1) := by
  induction l generalizing n with
  | nil => simp
  | cons x xs ih =>
    cases n with
    | zero => simp
    | succ m => simpa using ih m

theorem getD_irrel {α : Type} (l : List α) :
    ∀ (n : Nat) (d e : α), n < l.length → l.getD n d = l.getD n e := by
  induction l with
  | nil => intro n d e h; simp at h
  | cons x xs ih =>
    intro n d e h
    cases n with
    | zero => simp
    | succ m =>
      simp only [List.getD_cons_succ]
      exact ih m d e (by simpa using h)

theorem getLastD_take_succ (l : List data_item) :
    ∀ (n : Nat) (d : data_item), n < l.length →
      (l.take (n + 1)).getLastD d = l.getD n d := by
  induction l with
  | nil => intro n d h; simp at h
  | cons x xs ih =>
    intro n d h
    cases n with
    | zero => simp
    | succ m =>
      have hm : m < xs.length := by simpa using h
      simp only [List.take, List.getLastD_cons, List.getD_cons_succ]
      rw [ih m x hm]
      exact getD_irrel xs m x d hm

theorem getD_length_sub_one {α : Type} (l : List α) (d : α) :
    l.getD (l.length - 1) d = l.getLastD d := by
  induction l generalizing d with
  | nil => simp
  | cons x xs ih =>
    cases xs with
    | nil => simp
    | cons y ys =>
      simp only [List.getLastD_cons]
      rw [show (x :: y :: ys).length - 1 = ((y :: ys).length - 1) + 1 from by
        simp]
      rw [List.getD_cons_succ, ih d]
      simp only [List.getLastD_cons]

theorem length_propogate_list (l : List data_item) :
    ∀ prev, (propogate_list prev l).length = l.length := by
  induction l with
  | nil => intro prev; rfl
  | cons d ds ih => intro prev; simp [propogate_list, ih]

theorem getLastD_mem (l : List index_item) :
    ∀ d : index_item, l ≠ [] → l.getLastD d ∈ l := by
  induction l with
  | nil => intro d h; exact absurd rfl h
  | cons a as ih =>
    intro d _
    rw [List.getLastD_cons]
    cases as with
    | nil => simp
    | cons b bs => exact List.mem_cons_of_mem a (ih a (by simp))

/-! ### The cumulative-sum chain invariant (spec section 3, invariants 1-2) -/

/-- `integrals_ok prev l` says every bucket of `l` carries the partial sums of
its predecessor (`prev` for the head) extended by its own value, i.e. the
propagation invariant of the data vector. -/
def integrals_ok : data_item → List data_item → Prop
  | _, [] => True
  | prev, d :: ds =>
    d.integral = prev.integral + d.value ∧
    d.second_integral = prev.second_integral + d.value * d.value ∧
    integrals_ok d ds

theorem integrals_ok_propogate_list (l : List data_item) :
    ∀ prev, integrals_ok prev (propogate_list prev l) := by
  induction l with
  | nil => intro prev; trivial
  | cons d ds ih =>
    intro prev
    exact ⟨rfl, rfl, ih (propogate prev d)⟩

theorem integrals_ok_take (l : List data_item) :
    ∀ prev n, integrals_ok prev l → integrals_ok prev (l.take n) := by
  induction l with
  | nil => intro prev n _; simp [integrals_ok]
  | cons d ds ih =>
    intro prev n h
    cases n with
    | zero => trivial
    | succ m =>
      obtain ⟨h1, h2, h3⟩ := h
      exact ⟨h1, h2, ih d m h3⟩

theorem integrals_ok_glue (A : List data_item) :
    ∀ prev (B : List data_item), integrals_ok prev A →
      integrals_ok prev (A ++ propogate_list (A.getLastD prev) B) := by
  induction A with
  | nil =>
    intro prev B _
    simpa using integrals_ok_propogate_list B prev
  | cons a A ih =>
    intro prev B h
    obtain ⟨h1, h2, h3⟩ := h
    simp only [List.getLastD_cons, List.cons_append]
    exact ⟨h1, h2, ih a B h3⟩

theorem integrals_ok_step (l : List data_item) :
    ∀ prev q, integrals_ok prev l → q + 1 < l.length →
      (l.getD (q + 1) zero_item).integral =
        (l.getD q zero_item).integral + (l.getD (q + 1) zero_item).value ∧
      (l.getD (q + 1) zero_item).second_integral =
        (l.getD q zero_item).second_integral +
          (l.getD (q + 1) zero_item).value * (l.getD (q + 1) zero_item).value := by
  induction l with
  | nil => intro prev q _ hq; simp at hq
  | cons d ds ih =>
    intro prev q h hq
    obtain ⟨_, _, h3⟩ := h
    cases q with
    | zero =>
      cases ds with
      | nil => simp at hq
      | cons e es =>
        obtain ⟨e1, e2, _⟩ := h3
        simpa using ⟨e1, e2⟩
    | succ m =>
      have := ih d m h3 (by simpa using hq)
      simpa using this

theorem integrals_ok_head (l : List data_item) (prev : data_item)
    (h : integrals_ok prev l) (hl : 0 < l.length) :
    (l.getD 0 zero_item).integral =
      prev.integral + (l.getD 0 zero_item).value ∧
    (l.getD 0 zero_item).second_integral =
      prev.second_integral +
        (l.getD 0 zero_item).value * (l.getD 0 zero_item).value := by
  cases l with
  | nil => simp at hl
  | cons d ds =>
    obtain ⟨h1, h2, _⟩ := h
    simpa using ⟨h1, h2⟩

theorem integrals_ok_sum (l : List data_item) :
    ∀ prev p, integrals_ok prev l → p < l.length →
      (l.getD p zero_item).integral =
        prev.integral + ((l.take (p + 1)).map data_item.value).sum ∧
      (l.getD p zero_item).second_integral =
        prev.second_integral +
          ((l.take (p + 1)).map (fun d => d.value * d.value)).sum := by
  induction l with
  | nil => intro prev p _ hp; simp at hp
  | cons d ds ih =>
    intro prev p h hp
    obtain ⟨h1, h2, h3⟩ := h
    cases p with
    | zero => simpa using ⟨h1, h2⟩
    | succ m =>
      have := ih d m h3 (by simpa using hp)
      obtain ⟨i1, i2⟩ := this
      constructor
      · simp only [List.getD_cons_succ, List.take, List.map_cons, List.sum_cons]
        omega
      · simp only [List.getD_cons_succ, List.take, List.map_cons, List.sum_cons]
        omega

/-! ### Shape lemmas for the two mutation paths of `put` -/

theorem put_update_eq (data : List data_item) (pos c : Nat)
    (hpos : pos < data.length) :
    put_update data pos c =
      data.take pos ++
        propogate_list ((data.take pos).getLastD zero_item)
          (⟨(data.getD pos zero_item).value + c,
            (data.getD pos zero_item).integral,
            (data.getD pos zero_item).second_integral⟩ ::
            data.drop (pos + 1)) := by
  simp only [put_update]
  rw [take_set_succ data pos _ hpos, getD_set_self data pos _ zero_item hpos,
    drop_set_succ]
  have hprevL : (if 0 < pos then data.getD (pos - 1) zero_item else zero_item) =
      (data.take pos).getLastD zero_item := by
    cases pos with
    | zero => simp
    | succ m =>
      simp only [if_pos (Nat.succ_pos m), Nat.succ_sub_one]
      exact (getLastD_take_succ data m zero_item (by omega)).symm
  rw [hprevL]
  simp [List.append_assoc, propogate_list, update_current]

theorem put_update_length (data : List data_item) (pos c : Nat)
    (hpos : pos < data.length) :
    (put_update data pos c).length = data.length := by
  rw [put_update_eq data pos c hpos]
  simp only [List.length_append, List.length_take, length_propogate_list,
    List.length_cons, List.length_drop]
  omega

theorem put_update_chain (data : List data_item) (pos c : Nat)
    (hpos : pos < data.length) (h : integrals_ok zero_item data) :
    integrals_ok zero_item (put_update data pos c) := by
  rw [put_update_eq data pos c hpos]
  exact integrals_ok_glue _ _ _ (integrals_ok_take data zero_item pos h)

theorem put_update_value (data : List data_item) (pos c : Nat)
    (hpos : pos < data.length) :
    ((put_update data pos c).getD pos zero_item).value =
      (data.getD pos zero_item).value + c := by
  rw [put_update_eq data pos c hpos]
  rw [List.getD_append_right _ _ _ pos (by simp [List.length_take])]
  simp [List.length_take, Nat.min_eq_left (le_of_lt hpos), propogate_list,
    propogate]

theorem put_append_eq (data : List data_item) (c : Nat) :
    put_append data c =
      data ++ propogate_list (data.getLastD zero_item) [⟨c, 0, 0⟩] := by
  simp only [put_append]
  rw [getD_length_sub_one]
  rfl

theorem put_append_length (data : List data_item) (c : Nat) :
    (put_append data c).length = data.length + 1 := by
  simp [put_append]

theorem put_append_chain (data : List data_item) (c : Nat)
    (h : integrals_ok zero_item data) :
    integrals_ok zero_item (put_append data c) := by
  rw [put_append_eq]
  exact integrals_ok_glue _ _ _ h

theorem put_append_value (data : List data_item) (c : Nat) :
    ((put_append data c).getD data.length zero_item).value = c := by
  rw [put_append_eq]
  rw [List.getD_append_right _ _ _ data.length (le_refl _)]
  simp [propogate_list, propogate]

/-! ### The sparse-index anchor invariant (spec section 3, invariants 3-5) -/

/-- Pairwise anchor invariant: positions strictly increase and each anchor's
time exceeds its predecessor's by at least the bucket span of the run between
them (`prev` plays the predecessor of the head). -/
def anchors_ok (res : Nat) : index_item → List index_item → Prop
  | _, [] => True
  | prev, a :: rest =>
    prev.pos < a.pos ∧ prev.time + (a.pos - prev.pos) * res ≤ a.time ∧
    anchors_ok res a rest

/-- The anchor invariant for a full index. -/
def anchors_chain (res : Nat) : List index_item → Prop
  | [] => True
  | a :: rest => anchors_ok res a rest

theorem anchors_ok_le (res : Nat) (l : List index_item) :
    ∀ prev, anchors_ok res prev l → ∀ x ∈ l,
      prev.time ≤ x.time ∧ prev.pos < x.pos := by
  induction l with
  | nil => intro prev _ x hx; simp at hx
  | cons a rest ih =>
    intro prev h x hx
    obtain ⟨h1, h2, h3⟩ := h
    rcases List.mem_cons.mp hx with rfl | hx2
    · exact ⟨le_trans (Nat.le_add_right _ _) h2, h1⟩
    · have := ih a h3 x hx2
      exact ⟨le_trans (le_trans (Nat.le_add_right _ _) h2) this.1,
             lt_trans h1 this.2⟩

theorem anchors_chain_le_last (res : Nat) (l : List index_item) :
    ∀ (d : index_item), anchors_chain res l → ∀ x ∈ l,
      x.time ≤ (l.getLastD d).time ∧ x.pos ≤ (l.getLastD d).pos := by
  induction l with
  | nil => intro d _ x hx; simp at hx
  | cons a rest ih =>
    intro d h x hx
    rw [List.getLastD_cons]
    cases rest with
    | nil =>
      rcases List.mem_cons.mp hx with rfl | hx2
      · simp
      · simp at hx2
    | cons b rest2 =>
      have h3 : anchors_ok res a (b :: rest2) := h
      obtain ⟨h1, h2, h4⟩ := h3
      rcases List.mem_cons.mp hx with hx1 | hx2
      · rw [hx1]
        have hblast := ih a h4 b (List.mem_cons_self b rest2)
        exact ⟨le_trans (le_trans (Nat.le_add_right _ _) h2) hblast.1,
               le_trans (le_of_lt h1) hblast.2⟩
      · exact ih a h4 x hx2

theorem anchors_ok_concat (res : Nat) (l : List index_item) :
    ∀ prev x, anchors_ok res prev (l ++ [x]) →
      anchors_ok res prev l ∧
      (l.getLastD prev).pos < x.pos ∧
      (l.getLastD prev).time + (x.pos - (l.getLastD prev).pos) * res ≤
        x.time := by
  induction l with
  | nil =>
    intro prev x h
    obtain ⟨h1, h2, _⟩ := h
    exact ⟨trivial, by simpa using h1, by simpa using h2⟩
  | cons a rest ih =>
    intro prev x h
    obtain ⟨h1, h2, h3⟩ := h
    have := ih a x h3
    refine ⟨⟨h1, h2, this.1⟩, ?_, ?_⟩
    · rw [List.getLastD_cons]; exact this.2.1
    · rw [List.getLastD_cons]; exact this.2.2

theorem anchors_ok_append (res : Nat) (l : List index_item) :
    ∀ prev x, anchors_ok res prev l →
      (l.getLastD prev).pos < x.pos →
      (l.getLastD prev).time + (x.pos - (l.getLastD prev).pos) * res ≤
        x.time →
      anchors_ok res prev (l ++ [x]) := by
  induction l with
  | nil =>
    intro prev x _ h1 h2
    exact ⟨by simpa using h1, by simpa using h2, trivial⟩
  | cons a rest ih =>
    intro prev x h hp ht
    obtain ⟨h1, h2, h3⟩ := h
    rw [List.getLastD_cons] at hp ht
    exact ⟨h1, h2, ih a x h3 hp ht⟩

theorem anchors_chain_append (res : Nat) (l : List index_item)
    (x : index_item) (h : anchors_chain res l) (hne : l ≠ [])
    (hp : (l.getLastD ⟨0, 0⟩).pos < x.pos)
    (ht : (l.getLastD ⟨0, 0⟩).time +
            (x.pos - (l.getLastD ⟨0, 0⟩).pos) * res ≤ x.time) :
    anchors_chain res (l ++ [x]) := by
  cases l with
  | nil => exact absurd rfl hne
  | cons a rest =>
    rw [List.getLastD_cons] at hp ht
    show anchors_ok res a (rest ++ [x])
    exact anchors_ok_append res rest a x h hp ht

theorem anchors_chain_concat (res : Nat) (l : List index_item)
    (x : index_item) (hne : l ≠ [])
    (h : anchors_chain res (l ++ [x])) :
    anchors_chain res l ∧
    (l.getLastD ⟨0, 0⟩).pos < x.pos ∧
    (l.getLastD ⟨0, 0⟩).time +
      (x.pos - (l.getLastD ⟨0, 0⟩).pos) * res ≤ x.time := by
  cases l with
  | nil => exact absurd rfl hne
  | cons a rest =>
    have h2 : anchors_ok res a (rest ++ [x]) := h
    have := anchors_ok_concat res rest a x h2
    refine ⟨this.1, ?_, ?_⟩
    · rw [List.getLastD_cons]; exact this.2.1
    · rw [List.getLastD_cons]; exact this.2.2

theorem headD_append_left (l : List index_item) (x d : index_item)
    (h : l ≠ []) : (l ++ [x]).headD d = l.headD d := by
  cases l with
  | nil => exact absurd rfl h
  | cons a rest => simp

/-! ### The state invariant of a timeline and its preservation by `put` -/

/-- All the state invariants of spec section 3 that the proofs below rely on:
cumulative sums are correct, the data and index vectors are empty together,
anchors satisfy the pairwise monotonicity invariant, the first anchor sits at
position 0, the last anchor points into the data vector, and all anchor times
are congruent to the first anchor's time modulo the resolution. -/
structure Inv (tl : timeline) : Prop where
  chain : integrals_ok zero_item tl.data
  both : tl.data = [] ↔ tl.index = []
  anchors : anchors_chain tl.resolution tl.index
  headpos : tl.index ≠ [] → (tl.index.headD ⟨0, 0⟩).pos = 0
  lastpos : tl.index ≠ [] → (tl.index.getLastD ⟨0, 0⟩).pos < tl.data.length
  modres : ∀ a ∈ tl.index,
    a.time % tl.resolution = (tl.index.headD ⟨0, 0⟩).time % tl.resolution

theorem Inv_empty (res : Nat) : Inv (empty_timeline res) := by
  refine ⟨trivial, by simp [empty_timeline], trivial, ?_, ?_, ?_⟩
  · intro h; exact absurd rfl h
  · intro h; exact absurd rfl h
  · intro a ha; simp [empty_timeline] at ha

theorem Inv_put (tl : timeline) (t c : Nat) (h : Inv tl) :
    Inv (tl.put t c).2 := by
  unfold timeline.put
  by_cases hI : 0 < tl.index.length
  · have hIne : tl.index ≠ [] := by
      intro hh; rw [hh] at hI; simp at hI
    have hDne : tl.data ≠ [] := by
      intro hh; exact hIne (h.both.mp hh)
    have hDlen : 0 < tl.data.length := List.length_pos.mpr hDne
    rw [if_pos hI]
    by_cases hT : (tl.index.getLastD ⟨0, 0⟩).time ≤ t
    · rw [if_pos hT]
      by_cases hP : put_target tl t < tl.data.length
      · rw [if_pos hP]
        by_cases hB : tl.data.length - put_target tl t < ADD_BUCKET_BACK_LIMIT
        · rw [if_pos hB]
          refine ⟨put_update_chain _ _ _ hP h.chain, ?_, h.anchors, h.headpos,
            ?_, h.modres⟩
          · rw [put_update_eq _ _ _ hP]
            constructor
            · intro hh
              have := congrArg List.length hh
              simp only [List.length_append, List.length_take,
                length_propogate_list, List.length_cons, List.length_drop,
                List.length_nil] at this
              omega
            · intro hh
              exact absurd hh hIne
          · intro hne
            rw [put_update_length _ _ _ hP]
            exact h.lastpos hne
        · rw [if_neg hB]; exact h
      · rw [if_neg hP]
        by_cases hG : put_target tl t = tl.data.length - 1 + 1
        · rw [if_pos hG]
          refine ⟨put_append_chain _ _ h.chain, ?_, h.anchors, h.headpos,
            ?_, h.modres⟩
          · constructor
            · intro hh
              have := congrArg List.length hh
              rw [put_append_length] at this
              simp at this
            · intro hh
              exact absurd hh hIne
          · intro hne
            rw [put_append_length]
            exact lt_trans (h.lastpos hne) (by omega)
        · rw [if_neg hG]
          have hlen1 : tl.data.length - 1 + 1 = tl.data.length := by omega
          have hgpos : (put_gap_anchor tl t).pos = tl.data.length := by
            simp [put_gap_anchor, hlen1]
          have hofflarge : tl.data.length + 1 ≤ put_target tl t := by omega
          have hlp := h.lastpos hIne
          refine ⟨put_append_chain _ _ h.chain, ?_, ?_, ?_, ?_, ?_⟩
          · constructor
            · intro hh
              have := congrArg List.length hh
              rw [put_append_length] at this
              simp at this
            · intro hh
              have := congrArg List.length hh
              simp at this
          · -- anchors of the extended index
            apply anchors_chain_append _ _ _ h.anchors hIne
            · rw [hgpos]; exact hlp
            · rw [hgpos]
              show (tl.index.getLastD ⟨0, 0⟩).time +
                  (tl.data.length - (tl.index.getLastD ⟨0, 0⟩).pos) *
                    tl.resolution ≤
                (find_pos_from_range_last tl.index tl.resolution t).time +
                  (find_pos_from_range_last tl.index tl.resolution t).offset *
                    tl.resolution
              simp only [find_pos_from_range_last]
              have hoff : tl.data.length - (tl.index.getLastD ⟨0, 0⟩).pos ≤
                  (t - (tl.index.getLastD ⟨0, 0⟩).time) / tl.resolution := by
                have : put_target tl t =
                    (tl.index.getLastD ⟨0, 0⟩).pos +
                      (t - (tl.index.getLastD ⟨0, 0⟩).time) /
                        tl.resolution := rfl
                omega
              exact Nat.add_le_add (le_refl _) (Nat.mul_le_mul_right _ hoff)
          · intro _
            rw [headD_append_left _ _ _ hIne]
            exact h.headpos hIne
          · intro _
            rw [List.getLastD_concat, hgpos, put_append_length]
            omega
          · intro a ha
            rw [headD_append_left _ _ _ hIne]
            rcases List.mem_append.mp ha with ha2 | ha2
            · exact h.modres a ha2
            · have : a = put_gap_anchor tl t := by simpa using ha2
              subst this
              show (put_gap_anchor tl t).time % tl.resolution = _
              simp only [put_gap_anchor, find_pos_from_range_last]
              rw [Nat.add_mul_mod_self_right]
              exact h.modres _ (getLastD_mem _ _ hIne)
    · rw [if_neg hT]; exact h
  · rw [if_neg hI]
    have hie : tl.index = [] := by
      cases hl : tl.index with
      | nil => rfl
      | cons a rest => rw [hl] at hI; simp at hI
    refine ⟨⟨by simp [zero_item], by simp [zero_item], trivial⟩, by simp,
      trivial, ?_, ?_, ?_⟩
    · intro _; rfl
    · intro _; simp
    · intro a ha
      have : a = (⟨t, 0⟩ : index_item) := by simpa using ha
      subst this
      rfl

theorem Inv_apply_puts (tl : timeline) (ps : List (Nat × Nat)) (h : Inv tl) :
    Inv (apply_puts tl ps) := by
  induction ps generalizing tl with
  | nil => exact h
  | cons p ps ih =>
    cases p with
    | mk t c => exact ih _ (Inv_put tl t c h)

theorem resolution_put (tl : timeline) (t c : Nat) :
    (tl.put t c).2.resolution = tl.resolution := by
  unfold timeline.put
  split_ifs <;> rfl

theorem resolution_apply_puts (tl : timeline) (ps : List (Nat × Nat)) :
    (apply_puts tl ps).resolution = tl.resolution := by
  induction ps generalizing tl with
  | nil => rfl
  | cons p ps ih =>
    cases p with
    | mk t c => rw [apply_puts, ih, resolution_put]

/-! ### Computation lemmas for `find_pos`, `clamp`, `get` and `diff` -/

theorem takeWhile_all {α : Type} (p : α → Bool) (l : List α)
    (h : ∀ x ∈ l, p x = true) : l.takeWhile p = l := by
  induction l with
  | nil => rfl
  | cons a rest ih =>
    rw [List.takeWhile_cons_of_pos (h a (List.mem_cons_self a rest)),
      ih fun x hx => h x (List.mem_cons_of_mem a hx)]

theorem takeWhile_append_all {α : Type} (p : α → Bool) (l1 l2 : List α)
    (h : ∀ x ∈ l1, p x = true) :
    (l1 ++ l2).takeWhile p = l1 ++ l2.takeWhile p := by
  induction l1 with
  | nil => rfl
  | cons a rest ih =>
    rw [List.cons_append,
      List.takeWhile_cons_of_pos (h a (List.mem_cons_self a rest)),
      ih fun x hx => h x (List.mem_cons_of_mem a hx), List.cons_append]

theorem clamp_noop (r : pos_result) (size : Nat)
    (h : r.pos + r.offset < size) : clamp r size = some r := by
  unfold clamp
  rw [if_pos (by omega), if_pos h]

theorem find_pos_all_le (l : List index_item) (res t : Nat) (hne : l ≠ [])
    (hall : ∀ x ∈ l, x.time ≤ t) :
    find_pos l res t =
      ⟨l.length - 1, (l.getLastD ⟨0, 0⟩).time, (l.getLastD ⟨0, 0⟩).pos,
       (t - (l.getLastD ⟨0, 0⟩).time) / res⟩ := by
  cases l with
  | nil => exact absurd rfl hne
  | cons a0 rest =>
    have hlast : (a0 :: rest).getD ((a0 :: rest).length - 1) a0 =
        (a0 :: rest).getLastD ⟨0, 0⟩ := by
      rw [getD_irrel (a0 :: rest) ((a0 :: rest).length - 1) a0 ⟨0, 0⟩
        (by simp), getD_length_sub_one]
    have htw : (a0 :: rest).takeWhile (fun a => decide (a.time ≤ t)) =
        a0 :: rest :=
      takeWhile_all _ _ fun x hx => by simpa using hall x hx
    have hnone : (a0 :: rest).get? ((a0 :: rest).length - 1 + 1) = none := by
      rw [List.get?_eq_none]
      simp
    simp only [find_pos]
    rw [if_neg (Nat.not_lt.mpr (hall a0 (List.mem_cons_self _ _)))]
    simp only [htw, hnone, hlast]

theorem find_pos_penult (l1 : List index_item) (aL : index_item)
    (res u : Nat) (hne : l1 ≠ []) (hall : ∀ x ∈ l1, x.time ≤ u)
    (hgt : u < aL.time) :
    find_pos (l1 ++ [aL]) res u =
      ⟨l1.length - 1, (l1.getLastD ⟨0, 0⟩).time, (l1.getLastD ⟨0, 0⟩).pos,
       min ((u - (l1.getLastD ⟨0, 0⟩).time) / res)
         (aL.pos - (l1.getLastD ⟨0, 0⟩).pos - 1)⟩ := by
  cases l1 with
  | nil => exact absurd rfl hne
  | cons a0 rest =>
    have htw : ((a0 :: rest) ++ [aL]).takeWhile
        (fun a => decide (a.time ≤ u)) = a0 :: rest := by
      rw [takeWhile_append_all _ _ _ fun x hx => by simpa using hall x hx,
        List.takeWhile_cons_of_neg (by simpa using Nat.not_le.mpr hgt)]
      simp
    have hlast : ((a0 :: rest) ++ [aL]).getD ((a0 :: rest).length - 1) a0 =
        (a0 :: rest).getLastD ⟨0, 0⟩ := by
      rw [List.getD_append _ _ _ _ (by simp),
        getD_irrel (a0 :: rest) ((a0 :: rest).length - 1) a0 ⟨0, 0⟩ (by simp),
        getD_length_sub_one]
    have hsome : ((a0 :: rest) ++ [aL]).get? ((a0 :: rest).length - 1 + 1) =
        some aL := by
      have : (a0 :: rest).length - 1 + 1 = (a0 :: rest).length := by simp
      rw [this, List.get?_concat_length]
    show find_pos (a0 :: (rest ++ [aL])) res u = _
    simp only [find_pos]
    rw [if_neg (Nat.not_lt.mpr (hall a0 (List.mem_cons_self _ _)))]
    rw [show a0 :: (rest ++ [aL]) = (a0 :: rest) ++ [aL] from rfl]
    simp only [htw, hsome, hlast]

theorem get_at_last_run (tl : timeline) (u io : Nat) (hne : tl.index ≠ [])
    (hall : ∀ x ∈ tl.index, x.time ≤ u)
    (hfit : (tl.index.getLastD ⟨0, 0⟩).pos +
        (u - (tl.index.getLastD ⟨0, 0⟩).time) / tl.resolution <
      tl.data.length) :
    tl.get u io =
      some ⟨tl.index.length - 1, u, (tl.index.getLastD ⟨0, 0⟩).time,
            (tl.index.getLastD ⟨0, 0⟩).pos,
            (u - (tl.index.getLastD ⟨0, 0⟩).time) / tl.resolution,
            tl.data.getD
              ((tl.index.getLastD ⟨0, 0⟩).pos +
                (u - (tl.index.getLastD ⟨0, 0⟩).time) / tl.resolution)
              zero_item⟩ := by
  have hlt : (tl.index.getLastD ⟨0, 0⟩).time ≤ u :=
    hall _ (getLastD_mem _ _ hne)
  simp only [timeline.get]
  rw [find_pos_all_le tl.index tl.resolution u hne hall, clamp_noop _ _ hfit]
  simp only [Option.some.injEq]
  rw [if_neg (Nat.not_lt.mpr hlt)]

theorem get_at_penult (tl : timeline) (u io : Nat) (l1 : List index_item)
    (aL : index_item) (hidx : tl.index = l1 ++ [aL]) (hne : l1 ≠ [])
    (hall : ∀ x ∈ l1, x.time ≤ u) (hgt : u < aL.time)
    (hclamp : aL.pos - (l1.getLastD ⟨0, 0⟩).pos - 1 ≤
      (u - (l1.getLastD ⟨0, 0⟩).time) / tl.resolution)
    (hfit : (l1.getLastD ⟨0, 0⟩).pos +
        (aL.pos - (l1.getLastD ⟨0, 0⟩).pos - 1) < tl.data.length) :
    tl.get u io =
      some ⟨l1.length - 1, u, (l1.getLastD ⟨0, 0⟩).time,
            (l1.getLastD ⟨0, 0⟩).pos,
            aL.pos - (l1.getLastD ⟨0, 0⟩).pos - 1,
            tl.data.getD
              ((l1.getLastD ⟨0, 0⟩).pos +
                (aL.pos - (l1.getLastD ⟨0, 0⟩).pos - 1)) zero_item⟩ := by
  have hpt : (l1.getLastD ⟨0, 0⟩).time ≤ u := hall _ (getLastD_mem _ _ hne)
  simp only [timeline.get, hidx]
  rw [find_pos_penult l1 aL tl.resolution u hne hall hgt,
    Nat.min_eq_right hclamp, clamp_noop _ _ hfit]
  simp only [Option.some.injEq]
  rw [if_neg (Nat.not_lt.mpr hpt)]

theorem get_before_first (tl : timeline) (u io : Nat) (a0 : index_item)
    (rest : List index_item) (hidx : tl.index = a0 :: rest)
    (hu : u < a0.time) (hpos : a0.pos = 0) (hlen : 0 < tl.data.length) :
    tl.get u io = some ⟨0, u, a0.time, a0.pos, 0, zero_item⟩ := by
  simp only [timeline.get, hidx, find_pos]
  rw [if_pos hu, clamp_noop _ _ (by simpa [hpos] using hlen)]
  simp only [Option.some.injEq]
  rw [if_pos hu]

theorem diff_adjacent (tl2 : timeline) (t io : Nat)
    (hres : 0 < tl2.resolution) (ht : tl2.resolution ≤ t)
    (hlen : ¬ tl2.data.length = 0) (ar br : get_result)
    (h1 : tl2.get (t - tl2.resolution) io = some ar)
    (h2 : tl2.get t io = some br)
    (hq1 : ar.query_time = t - tl2.resolution) (hq2 : br.query_time = t)
    (hrt : br.range_time ≤ t) :
    tl2.diff (t - tl2.resolution) t io =
      some (diff_buckets (t - tl2.resolution) t tl2.resolution
        ar.index_offset ar.value br.value 1) := by
  have hswap : ¬ t < t - tl2.resolution := by omega
  have hsub : t - (t - tl2.resolution) = tl2.resolution := by omega
  simp only [timeline.diff]
  simp only [if_neg hswap]
  rw [if_neg hlen, h1, h2]
  simp only []
  rw [hq2, Nat.max_eq_left hrt, hq1, Nat.min_eq_left (by omega), hsub,
    Nat.div_self hres]
  rw [if_neg (by omega : ¬ (1 : Nat) = 0)]

theorem getD_oob {α : Type} (l : List α) :
    ∀ (n : Nat) (d : α), l.length ≤ n → l.getD n d = d := by
  induction l with
  | nil => intro n d _; simp
  | cons x xs ih =>
    intro n d h
    cases n with
    | zero => simp at h
    | succ m =>
      rw [List.getD_cons_succ]
      exact ih m d (by simpa using h)

theorem getLastD_eq_getLast {α : Type} (l : List α) (h : l ≠ []) (d : α) :
    l.getLastD d = l.getLast h := by
  induction l generalizing d with
  | nil => exact absurd rfl h
  | cons a rest ih =>
    cases rest with
    | nil => simp
    | cons b r2 =>
      have h2 : b :: r2 ≠ [] := by simp
      rw [List.getLastD_cons, ih h2 a]
      exact (List.getLast_cons h2).symm

theorem sum_step (d2 : List data_item) (q : Nat)
    (hchain : integrals_ok zero_item d2) (hq : q + 1 < d2.length) :
    (d2.getD (q + 1) zero_item).integral - (d2.getD q zero_item).integral =
      (d2.getD (q + 1) zero_item).value := by
  have := integrals_ok_step d2 zero_item q hchain hq
  omega

theorem sum_head (d2 : List data_item)
    (hchain : integrals_ok zero_item d2) (h0 : 0 < d2.length) :
    (d2.getD 0 zero_item).integral = (d2.getD 0 zero_item).value := by
  have := (integrals_ok_head d2 zero_item hchain h0).1
  simpa [zero_item] using this

/-- The heart of the read-back property: an accepted `put(t, c)` on a state
satisfying the invariant is observed in full by `diff(t - resolution, t)`,
whose sum is `c` plus whatever the target bucket held before the put. -/
theorem put_diff_back (tl : timeline) (hInv : Inv tl) (t c io : Nat)
    (hres : 0 < tl.resolution) (ht : tl.resolution ≤ t) (tl2 : timeline)
    (hput : tl.put t c = (true, tl2)) :
    ∃ d, tl2.diff (t - tl.resolution) t io = some d ∧
      d.sum = c + (tl.data.getD (put_target tl t) zero_item).value := by
  unfold timeline.put at hput
  by_cases hI : 0 < tl.index.length
  · have hIne : tl.index ≠ [] := by
      intro hh; rw [hh] at hI; simp at hI
    have hDne : tl.data ≠ [] := by
      intro hh; exact hIne (hInv.both.mp hh)
    have hDlen : 0 < tl.data.length := List.length_pos.mpr hDne
    have hlpos : (tl.index.getLastD ⟨0, 0⟩).pos < tl.data.length :=
      hInv.lastpos hIne
    rw [if_pos hI] at hput
    by_cases hT : (tl.index.getLastD ⟨0, 0⟩).time ≤ t
    · rw [if_pos hT] at hput
      have hallt : ∀ x ∈ tl.index, x.time ≤ t := fun x hx =>
        le_trans
          (anchors_chain_le_last tl.resolution tl.index ⟨0, 0⟩
            hInv.anchors x hx).1 hT
      have hexp : put_target tl t =
          (tl.index.getLastD ⟨0, 0⟩).pos +
            (t - (tl.index.getLastD ⟨0, 0⟩).time) / tl.resolution := rfl
      by_cases hP : put_target tl t < tl.data.length
      · rw [if_pos hP] at hput
        by_cases hB :
            tl.data.length - put_target tl t < ADD_BUCKET_BACK_LIMIT
        · rw [if_pos hB] at hput
          have htl2 : (⟨tl.resolution,
              put_update tl.data (put_target tl t) c, tl.index⟩ : timeline) =
              tl2 := by
            have h2 := congrArg Prod.snd hput
            simpa using h2
          subst htl2
          have hlen2 : (put_update tl.data (put_target tl t) c).length =
              tl.data.length := put_update_length _ _ _ hP
          have hchain2 : integrals_ok zero_item
              (put_update tl.data (put_target tl t) c) :=
            put_update_chain _ _ _ hP hInv.chain
          have hval : ((put_update tl.data (put_target tl t) c).getD
              (put_target tl t) zero_item).value =
              (tl.data.getD (put_target tl t) zero_item).value + c :=
            put_update_value _ _ _ hP
          have hbr := get_at_last_run
            ⟨tl.resolution, put_update tl.data (put_target tl t) c,
              tl.index⟩ t io hIne hallt
            (by
              simp only []
              rw [hlen2]
              rw [hexp] at hP
              exact hP)
          by_cases hoff : t - (tl.index.getLastD ⟨0, 0⟩).time < tl.resolution
          · -- the target bucket is the last anchor's own bucket
            have hoffz : (t - (tl.index.getLastD ⟨0, 0⟩).time) /
                tl.resolution = 0 := Nat.div_eq_of_lt hoff
            have hposP : put_target tl t =
                (tl.index.getLastD ⟨0, 0⟩).pos := by
              rw [hexp, hoffz]
              omega
            by_cases hone : tl.index.length = 1
            · -- a single anchor: the query one bucket back precedes it
              obtain ⟨a0, hidx⟩ : ∃ a0, tl.index = [a0] := by
                cases hl : tl.index with
                | nil => rw [hl] at hone; simp at hone
                | cons a0 rest =>
                  cases rest with
                  | nil => exact ⟨a0, rfl⟩
                  | cons b r => rw [hl] at hone; simp at hone
              have hL : tl.index.getLastD ⟨0, 0⟩ = a0 := by rw [hidx]; rfl
              have ha0pos : a0.pos = 0 := by
                have h3 := hInv.headpos hIne
                rw [hidx] at h3
                exact h3
              have hposP0 : put_target tl t = 0 := by
                rw [hposP, hL, ha0pos]
              have har := get_before_first
                ⟨tl.resolution, put_update tl.data (put_target tl t) c,
                  tl.index⟩ (t - tl.resolution) io a0 [] hidx
                (by rw [hL] at hoff hT; omega) ha0pos
                (by simp only []; rw [hlen2]; exact hDlen)
              refine ⟨_, diff_adjacent
                ⟨tl.resolution, put_update tl.data (put_target tl t) c,
                  tl.index⟩ t io hres ht
                (by simp only []; rw [hlen2]; omega) _ _ har hbr rfl rfl
                hT, ?_⟩
              show ((put_update tl.data (put_target tl t) c).getD
                    ((tl.index.getLastD ⟨0, 0⟩).pos +
                      (t - (tl.index.getLastD ⟨0, 0⟩).time) /
                        tl.resolution) zero_item).integral -
                  zero_item.integral =
                c + (tl.data.getD (put_target tl t) zero_item).value
              rw [← hexp, hposP0]
              have h0 := sum_head _ hchain2 (by rw [hlen2]; exact hDlen)
              have hval0 := hval
              rw [hposP0] at h0 hval0
              rw [h0, hval0]
              simp only [zero_item]
              omega
            · -- at least two anchors: the query one bucket back resolves to
              -- the final bucket of the penultimate anchor's run
              have h2le : 2 ≤ tl.index.length := by
                have h3 := List.length_pos.mpr hIne
                omega
              have hl1len : tl.index.dropLast.length = tl.index.length - 1 :=
                by simp
              have hl1ne : tl.index.dropLast ≠ [] := by
                intro hh
                rw [hh] at hl1len
                simp at hl1len
                omega
              have heq : tl.index = tl.index.dropLast ++
                  [tl.index.getLastD ⟨0, 0⟩] := by
                rw [getLastD_eq_getLast tl.index hIne]
                exact (List.dropLast_append_getLast hIne).symm
              obtain ⟨hchainl1, hPlt, hPtime⟩ := anchors_chain_concat
                tl.resolution tl.index.dropLast (tl.index.getLastD ⟨0, 0⟩)
                hl1ne (by rw [← heq]; exact hInv.anchors)
              have hresrun : tl.resolution ≤
                  ((tl.index.getLastD ⟨0, 0⟩).pos -
                    (tl.index.dropLast.getLastD ⟨0, 0⟩).pos) *
                    tl.resolution := by
                calc tl.resolution = 1 * tl.resolution := by ring
                _ ≤ _ := Nat.mul_le_mul_right _ (by omega)
              have hPt : (tl.index.dropLast.getLastD ⟨0, 0⟩).time ≤
                  t - tl.resolution := by omega
              have hall1 : ∀ x ∈ tl.index.dropLast,
                  x.time ≤ t - tl.resolution := fun x hx =>
                le_trans (anchors_chain_le_last tl.resolution
                  tl.index.dropLast ⟨0, 0⟩ hchainl1 x hx).1 hPt
              have hgt : t - tl.resolution <
                  (tl.index.getLastD ⟨0, 0⟩).time := by omega
              have hclampbig : (tl.index.getLastD ⟨0, 0⟩).pos -
                  (tl.index.dropLast.getLastD ⟨0, 0⟩).pos - 1 ≤
                  (t - tl.resolution -
                    (tl.index.dropLast.getLastD ⟨0, 0⟩).time) /
                    tl.resolution := by
                rw [Nat.le_div_iff_mul_le hres]
                have hAr : ((tl.index.getLastD ⟨0, 0⟩).pos -
                    (tl.index.dropLast.getLastD ⟨0, 0⟩).pos - 1) *
                      tl.resolution =
                    ((tl.index.getLastD ⟨0, 0⟩).pos -
                      (tl.index.dropLast.getLastD ⟨0, 0⟩).pos) *
                      tl.resolution - 1 * tl.resolution := by
                  rw [← Nat.sub_mul]
                rw [hAr]
                omega
              have hfit1 : (tl.index.dropLast.getLastD ⟨0, 0⟩).pos +
                  ((tl.index.getLastD ⟨0, 0⟩).pos -
                    (tl.index.dropLast.getLastD ⟨0, 0⟩).pos - 1) <
                  (put_update tl.data (put_target tl t) c).length := by
                rw [hlen2]
                have h3 := hP
                rw [hposP] at h3
                omega
              have har := get_at_penult
                ⟨tl.resolution, put_update tl.data (put_target tl t) c,
                  tl.index⟩ (t - tl.resolution) io tl.index.dropLast
                (tl.index.getLastD ⟨0, 0⟩) heq hl1ne hall1 hgt hclampbig
                hfit1
              refine ⟨_, diff_adjacent
                ⟨tl.resolution, put_update tl.data (put_target tl t) c,
                  tl.index⟩ t io hres ht
                (by simp only []; rw [hlen2]; omega) _ _ har hbr rfl rfl
                hT, ?_⟩
              show ((put_update tl.data (put_target tl t) c).getD
                    ((tl.index.getLastD ⟨0, 0⟩).pos +
                      (t - (tl.index.getLastD ⟨0, 0⟩).time) /
                        tl.resolution) zero_item).integral -
                  ((put_update tl.data (put_target tl t) c).getD
                    ((tl.index.dropLast.getLastD ⟨0, 0⟩).pos +
                      ((tl.index.getLastD ⟨0, 0⟩).pos -
                        (tl.index.dropLast.getLastD ⟨0, 0⟩).pos - 1))
                    zero_item).integral =
                c + (tl.data.getD (put_target tl t) zero_item).value
              have hpos1 : (tl.index.dropLast.getLastD ⟨0, 0⟩).pos +
                  ((tl.index.getLastD ⟨0, 0⟩).pos -
                    (tl.index.dropLast.getLastD ⟨0, 0⟩).pos - 1) =
                  put_target tl t - 1 := by
                rw [hposP]
                omega
              rw [hpos1, ← hexp]
              have hq1 : put_target tl t - 1 + 1 = put_target tl t := by
                rw [hposP]
                omega
              have hstep := sum_step _ (put_target tl t - 1) hchain2
                (by rw [hq1, hlen2]; exact hP)
              rw [hq1] at hstep
              rw [hstep, hval]
              omega
          · -- the target bucket is deeper in the final anchor's run: both
            -- queries resolve there, one bucket apart
            have hoffge : tl.resolution ≤
                t - (tl.index.getLastD ⟨0, 0⟩).time := by omega
            have hoffpos : 1 ≤
                (t - (tl.index.getLastD ⟨0, 0⟩).time) / tl.resolution :=
              (Nat.one_le_div_iff hres).mpr hoffge
            have hoffa : (t - tl.resolution -
                (tl.index.getLastD ⟨0, 0⟩).time) / tl.resolution =
                (t - (tl.index.getLastD ⟨0, 0⟩).time) / tl.resolution - 1 := by
              rw [show t - tl.resolution - (tl.index.getLastD ⟨0, 0⟩).time =
                t - (tl.index.getLastD ⟨0, 0⟩).time -
                  tl.resolution * 1 from by omega]
              exact Nat.sub_mul_div _ _ _ (by omega)
            have hall1 : ∀ x ∈ tl.index, x.time ≤ t - tl.resolution :=
              fun x hx =>
                le_trans (anchors_chain_le_last tl.resolution tl.index
                  ⟨0, 0⟩ hInv.anchors x hx).1 (by omega)
            have har := get_at_last_run
              ⟨tl.resolution, put_update tl.data (put_target tl t) c,
                tl.index⟩ (t - tl.resolution) io hIne hall1
              (by
                simp only []
                rw [hlen2, hoffa]
                rw [hexp] at hP
                omega)
            refine ⟨_, diff_adjacent
              ⟨tl.resolution, put_update tl.data (put_target tl t) c,
                tl.index⟩ t io hres ht
              (by simp only []; rw [hlen2]; omega) _ _ har hbr rfl rfl
              hT, ?_⟩
            show ((put_update tl.data (put_target tl t) c).getD
                  ((tl.index.getLastD ⟨0, 0⟩).pos +
                    (t - (tl.index.getLastD ⟨0, 0⟩).time) /
                      tl.resolution) zero_item).integral -
                ((put_update tl.data (put_target tl t) c).getD
                  ((tl.index.getLastD ⟨0, 0⟩).pos +
                    (t - tl.resolution -
                      (tl.index.getLastD ⟨0, 0⟩).time) / tl.resolution)
                  zero_item).integral =
              c + (tl.data.getD (put_target tl t) zero_item).value
            have hpos1 : (tl.index.getLastD ⟨0, 0⟩).pos +
                (t - tl.resolution - (tl.index.getLastD ⟨0, 0⟩).time) /
                  tl.resolution = put_target tl t - 1 := by
              rw [hoffa, hexp]
              omega
            rw [hpos1, ← hexp]
            have hq1 : put_target tl t - 1 + 1 = put_target tl t := by
              rw [hexp]
              omega
            have hstep := sum_step _ (put_target tl t - 1) hchain2
              (by rw [hq1, hlen2]; exact hP)
            rw [hq1] at hstep
            rw [hstep, hval]
            omega
        · rw [if_neg hB] at hput
          have h2 := congrArg Prod.fst hput
          simp at h2
      · rw [if_neg hP] at hput
        have hlen1 : tl.data.length - 1 + 1 = tl.data.length := by omega
        have hchain2 : integrals_ok zero_item (put_append tl.data c) :=
          put_append_chain _ _ hInv.chain
        have hlen2 : (put_append tl.data c).length = tl.data.length + 1 :=
          put_append_length _ _
        have hvalc : ((put_append tl.data c).getD tl.data.length
            zero_item).value = c := put_append_value _ _
        have htargzero : tl.data.getD (put_target tl t) zero_item =
            zero_item := getD_oob _ _ _ (by omega)
        by_cases hG : put_target tl t = tl.data.length - 1 + 1
        · -- contiguous append: no new anchor
          rw [if_pos hG] at hput
          have htl2 : (⟨tl.resolution, put_append tl.data c, tl.index⟩ :
              timeline) = tl2 := by
            have h2 := congrArg Prod.snd hput
            simpa using h2
          subst htl2
          have hGlen : put_target tl t = tl.data.length := by omega
          have hoffrun : (t - (tl.index.getLastD ⟨0, 0⟩).time) /
              tl.resolution = tl.data.length -
                (tl.index.getLastD ⟨0, 0⟩).pos := by
            have h2 := hGlen
            rw [hexp] at h2
            omega
          have hoffpos : 1 ≤
              (t - (tl.index.getLastD ⟨0, 0⟩).time) / tl.resolution := by
            rw [hoffrun]
            omega
          have hoffge : tl.resolution ≤
              t - (tl.index.getLastD ⟨0, 0⟩).time :=
            (Nat.one_le_div_iff hres).mp hoffpos
          have hoffa : (t - tl.resolution -
              (tl.index.getLastD ⟨0, 0⟩).time) / tl.resolution =
              (t - (tl.index.getLastD ⟨0, 0⟩).time) / tl.resolution - 1 := by
            rw [show t - tl.resolution - (tl.index.getLastD ⟨0, 0⟩).time =
              t - (tl.index.getLastD ⟨0, 0⟩).time -
                tl.resolution * 1 from by omega]
            exact Nat.sub_mul_div _ _ _ (by omega)
          have hbr := get_at_last_run
            ⟨tl.resolution, put_append tl.data c, tl.index⟩ t io hIne hallt
            (by
              simp only []
              rw [hlen2, hoffrun]
              omega)
          have hall1 : ∀ x ∈ tl.index, x.time ≤ t - tl.resolution :=
            fun x hx =>
              le_trans (anchors_chain_le_last tl.resolution tl.index
                ⟨0, 0⟩ hInv.anchors x hx).1 (by omega)
          have har := get_at_last_run
            ⟨tl.resolution, put_append tl.data c, tl.index⟩
            (t - tl.resolution) io hIne hall1
            (by
              simp only []
              rw [hlen2, hoffa, hoffrun]
              omega)
          refine ⟨_, diff_adjacent
            ⟨tl.resolution, put_append tl.data c, tl.index⟩ t io hres ht
            (by simp only []; rw [hlen2]; omega) _ _ har hbr rfl rfl
            hT, ?_⟩
          show ((put_append tl.data c).getD
                ((tl.index.getLastD ⟨0, 0⟩).pos +
                  (t - (tl.index.getLastD ⟨0, 0⟩).time) /
                    tl.resolution) zero_item).integral -
              ((put_append tl.data c).getD
                ((tl.index.getLastD ⟨0, 0⟩).pos +
                  (t - tl.resolution -
                    (tl.index.getLastD ⟨0, 0⟩).time) / tl.resolution)
                zero_item).integral =
            c + (tl.data.getD (put_target tl t) zero_item).value
          have hpos2 : (tl.index.getLastD ⟨0, 0⟩).pos +
              (t - (tl.index.getLastD ⟨0, 0⟩).time) / tl.resolution =
              tl.data.length := by
            rw [hoffrun]
            omega
          have hpos1 : (tl.index.getLastD ⟨0, 0⟩).pos +
              (t - tl.resolution - (tl.index.getLastD ⟨0, 0⟩).time) /
                tl.resolution = tl.data.length - 1 := by
            rw [hoffa, hoffrun]
            omega
          rw [hpos1, hpos2, htargzero]
          have hstep := sum_step _ (tl.data.length - 1) hchain2
            (by rw [hlen1, hlen2]; omega)
          rw [hlen1] at hstep
          rw [hstep, hvalc]
          simp [zero_item]
        · -- gap append: a new anchor is pushed after the old index
          rw [if_neg hG] at hput
          have htl2 : (⟨tl.resolution, put_append tl.data c,
              tl.index ++ [put_gap_anchor tl t]⟩ : timeline) = tl2 := by
            have h2 := congrArg Prod.snd hput
            simpa using h2
          subst htl2
          have hoffbig : tl.data.length + 1 ≤ put_target tl t := by omega
          have hgap : tl.data.length + 1 -
              (tl.index.getLastD ⟨0, 0⟩).pos ≤
              (t - (tl.index.getLastD ⟨0, 0⟩).time) / tl.resolution := by
            rw [hexp] at hoffbig
            omega
          have hdivmul : ((t - (tl.index.getLastD ⟨0, 0⟩).time) /
              tl.resolution) * tl.resolution ≤
              t - (tl.index.getLastD ⟨0, 0⟩).time :=
            Nat.div_mul_le_self _ _
          have hBmul : (tl.data.length + 1 -
              (tl.index.getLastD ⟨0, 0⟩).pos) * tl.resolution ≤
              ((t - (tl.index.getLastD ⟨0, 0⟩).time) / tl.resolution) *
                tl.resolution := Nat.mul_le_mul_right _ hgap
          have h2res : 2 * tl.resolution ≤
              (tl.data.length + 1 - (tl.index.getLastD ⟨0, 0⟩).pos) *
                tl.resolution :=
            Nat.mul_le_mul_right _ (by omega)
          have hGpos : (put_gap_anchor tl t).pos = tl.data.length := by
            show tl.data.length - 1 + 1 = tl.data.length
            exact hlen1
          have hGle : (put_gap_anchor tl t).time ≤ t := by
            show (tl.index.getLastD ⟨0, 0⟩).time +
              ((t - (tl.index.getLastD ⟨0, 0⟩).time) / tl.resolution) *
                tl.resolution ≤ t
            omega
          have hmd : (t - (tl.index.getLastD ⟨0, 0⟩).time) %
              tl.resolution = t - (tl.index.getLastD ⟨0, 0⟩).time -
                ((t - (tl.index.getLastD ⟨0, 0⟩).time) / tl.resolution) *
                  tl.resolution := by
            rw [Nat.mod_def, Nat.mul_comm]
          have hmlt := Nat.mod_lt (t - (tl.index.getLastD ⟨0, 0⟩).time) hres
          have hGmod : t - (put_gap_anchor tl t).time < tl.resolution := by
            show t - ((tl.index.getLastD ⟨0, 0⟩).time +
              ((t - (tl.index.getLastD ⟨0, 0⟩).time) / tl.resolution) *
                tl.resolution) < tl.resolution
            omega
          have hlastG : (tl.index ++
              [put_gap_anchor tl t]).getLastD ⟨0, 0⟩ =
              put_gap_anchor tl t := List.getLastD_concat _ _ _
          have hallG : ∀ x ∈ tl.index ++ [put_gap_anchor tl t],
              x.time ≤ t := by
            intro x hx
            rcases List.mem_append.mp hx with hx2 | hx2
            · exact hallt x hx2
            · have hx3 : x = put_gap_anchor tl t := by simpa using hx2
              subst hx3
              exact hGle
          have hbr := get_at_last_run
            ⟨tl.resolution, put_append tl.data c,
              tl.index ++ [put_gap_anchor tl t]⟩ t io (by simp) hallG
            (by
              simp only []
              rw [hlastG, hlen2, hGpos, Nat.div_eq_of_lt hGmod]
              omega)
          have hall1 : ∀ x ∈ tl.index, x.time ≤ t - tl.resolution :=
            fun x hx =>
              le_trans (anchors_chain_le_last tl.resolution tl.index
                ⟨0, 0⟩ hInv.anchors x hx).1 (by omega)
          have hgt : t - tl.resolution < (put_gap_anchor tl t).time := by
            omega
          have hclampbig : (put_gap_anchor tl t).pos -
              (tl.index.getLastD ⟨0, 0⟩).pos - 1 ≤
              (t - tl.resolution - (tl.index.getLastD ⟨0, 0⟩).time) /
                tl.resolution := by
            rw [Nat.le_div_iff_mul_le hres, hGpos]
            have hAr : (tl.data.length -
                (tl.index.getLastD ⟨0, 0⟩).pos - 1) * tl.resolution =
                (tl.data.length + 1 - (tl.index.getLastD ⟨0, 0⟩).pos) *
                  tl.resolution - 2 * tl.resolution := by
              rw [← Nat.sub_mul]
              congr 1
              omega
            rw [hAr]
            omega
          have har := get_at_penult
            ⟨tl.resolution, put_append tl.data c,
              tl.index ++ [put_gap_anchor tl t]⟩ (t - tl.resolution) io
            tl.index (put_gap_anchor tl t) rfl hIne hall1 hgt hclampbig
            (by
              simp only []
              rw [hlen2, hGpos]
              omega)
          refine ⟨_, diff_adjacent
            ⟨tl.resolution, put_append tl.data c,
              tl.index ++ [put_gap_anchor tl t]⟩ t io hres ht
            (by simp only []; rw [hlen2]; omega) _ _ har hbr rfl rfl
            (by
              show ((tl.index ++ [put_gap_anchor tl t]).getLastD
                ⟨0, 0⟩).time ≤ t
              rw [hlastG]
              exact hGle), ?_⟩
          show ((put_append tl.data c).getD
                (((tl.index ++ [put_gap_anchor tl t]).getLastD
                    ⟨0, 0⟩).pos +
                  (t - ((tl.index ++ [put_gap_anchor tl t]).getLastD
                    ⟨0, 0⟩).time) / tl.resolution) zero_item).integral -
              ((put_append tl.data c).getD
                ((tl.index.getLastD ⟨0, 0⟩).pos +
                  ((put_gap_anchor tl t).pos -
                    (tl.index.getLastD ⟨0, 0⟩).pos - 1))
                zero_item).integral =
            c + (tl.data.getD (put_target tl t) zero_item).value
          rw [hlastG, hGpos, Nat.div_eq_of_lt hGmod, Nat.add_zero]
          have hpos1 : (tl.index.getLastD ⟨0, 0⟩).pos +
              (tl.data.length - (tl.index.getLastD ⟨0, 0⟩).pos - 1) =
              tl.data.length - 1 := by omega
          rw [hpos1, htargzero]
          have hstep := sum_step _ (tl.data.length - 1) hchain2
            (by rw [hlen1, hlen2]; omega)
          rw [hlen1] at hstep
          rw [hstep, hvalc]
          simp [zero_item]
    · rw [if_neg hT] at hput
      have h2 := congrArg Prod.fst hput
      simp at h2
  · rw [if_neg hI] at hput
    have hie : tl.index = [] := by
      cases hl : tl.index with
      | nil => rfl
      | cons a rest => rw [hl] at hI; simp at hI
    have hde : tl.data = [] := hInv.both.mpr hie
    have htl2 : (⟨tl.resolution, [⟨c, c, c * c⟩], [⟨t, 0⟩]⟩ : timeline) =
        tl2 := by
      have h2 := congrArg Prod.snd hput
      simpa using h2
    subst htl2
    have hbr := get_at_last_run
      (⟨tl.resolution, [⟨c, c, c * c⟩], [⟨t, 0⟩]⟩ : timeline) t io
      (by simp)
      (by
        intro x hx
        have hx2 : x = (⟨t, 0⟩ : index_item) := by simpa using hx
        subst hx2
        exact Nat.le_refl t)
      (by
        show (0 : Nat) + (t - t) / tl.resolution < 1
        simp)
    have har := get_before_first
      (⟨tl.resolution, [⟨c, c, c * c⟩], [⟨t, 0⟩]⟩ : timeline)
      (t - tl.resolution) io ⟨t, 0⟩ [] rfl
      (by show t - tl.resolution < t; omega) rfl (by simp)
    refine ⟨_, diff_adjacent
      (⟨tl.resolution, [⟨c, c, c * c⟩], [⟨t, 0⟩]⟩ : timeline) t io hres ht
      (by simp) _ _ har hbr rfl rfl (Nat.le_refl t), ?_⟩
    show (([⟨c, c, c * c⟩] : List data_item).getD
          ((0 : Nat) + (t - t) / tl.resolution) zero_item).integral -
        zero_item.integral =
      c + (tl.data.getD (put_target tl t) zero_item).value
    rw [show (0 : Nat) + (t - t) / tl.resolution = 0 from by simp, hde]
    simp [zero_item]

/-- Projections of a successful `get`: the query time is echoed back, and when
the query does not precede the located range the returned bucket is the data
record at the resolved position. -/
theorem get_elim (tl : timeline) (u io : Nat) (r : get_result)
    (h : tl.get u io = some r) :
    r.query_time = u ∧
    (r.range_time ≤ u →
      r.value = tl.data.getD (r.pos + r.offset) zero_item) := by
  simp only [timeline.get] at h
  cases hcl : clamp (find_pos tl.index tl.resolution u) tl.data.length with
  | none => rw [hcl] at h; simp at h
  | some q =>
    rw [hcl] at h
    simp only [Option.some.injEq] at h
    subst h
    refine ⟨rfl, ?_⟩
    intro hrt
    simp only []
    rw [if_neg (Nat.not_lt.mpr hrt)]

/-! ### The claims -/

/-- C1: for every sequence of puts applied to an empty timeline and every
position `p` of the resulting data vector, `data[p].integral` is the sum of
`data[q].value` over `q ∈ [0, p]` and `data[p].second_integral` the sum of
the squared values. -/
theorem C1_prefix_sum_invariant (res : Nat) (ps : List (Nat × Nat)) (p : Nat)
    (hp : p < (apply_puts (empty_timeline res) ps).data.length) :
    ((apply_puts (empty_timeline res) ps).data.getD p zero_item).integral =
      (((apply_puts (empty_timeline res) ps).data.take (p + 1)).map
        data_item.value).sum ∧
    ((apply_puts (empty_timeline res) ps).data.getD p
        zero_item).second_integral =
      (((apply_puts (empty_timeline res) ps).data.take (p + 1)).map
        (fun d => d.value * d.value)).sum := by
  have h := integrals_ok_sum _ zero_item p
    (Inv_apply_puts (empty_timeline res) ps (Inv_empty res)).chain hp
  simpa [zero_item] using h

theorem C1_prefix_sum_invariant_witness :
    1 < (apply_puts (empty_timeline 10) [(100, 5), (110, 3)]).data.length ∧
    ((apply_puts (empty_timeline 10) [(100, 5), (110, 3)]).data.getD 1
        zero_item).integral =
      (((apply_puts (empty_timeline 10) [(100, 5), (110, 3)]).data.take
        (1 + 1)).map data_item.value).sum :=
  ⟨by decide,
   (C1_prefix_sum_invariant 10 [(100, 5), (110, 3)] 1 (by decide)).1⟩

/-- C2: whenever `put(t, c)` returns false the timeline (data vector and
index vector alike) is left exactly as it was. -/
theorem C2_reject_noop (tl : timeline) (t c : Nat)
    (h : (tl.put t c).1 = false) : (tl.put t c).2 = tl := by
  unfold timeline.put at h ⊢
  split_ifs at h ⊢ <;> simp_all

theorem C2_reject_noop_witness :
    ((apply_puts (empty_timeline 10) [(100, 5)]).put 50 1).1 = false ∧
    ((apply_puts (empty_timeline 10) [(100, 5)]).put 50 1).2 =
      apply_puts (empty_timeline 10) [(100, 5)] :=
  ⟨by decide, C2_reject_noop _ 50 1 (by decide)⟩

/-- C3: on a non-empty timeline `put(t, c)` returns false exactly when `t`
precedes the last anchor's time or the resolved target bucket exists and
`data.size() - target ≥ ADD_BUCKET_BACK_LIMIT = 60`; in particular a target
60 buckets back from `data.size()` is rejected and one 59 back accepted. -/
theorem C3_reject_iff (tl : timeline) (t c : Nat)
    (hIne : tl.index ≠ []) (hDne : tl.data ≠ []) :
    ((tl.put t c).1 = false ↔
      (t < (tl.index.getLastD ⟨0, 0⟩).time ∨
        (put_target tl t < tl.data.length ∧
          ADD_BUCKET_BACK_LIMIT ≤ tl.data.length - put_target tl t))) ∧
    ((tl.index.getLastD ⟨0, 0⟩).time ≤ t →
      put_target tl t + 60 = tl.data.length → (tl.put t c).1 = false) ∧
    ((tl.index.getLastD ⟨0, 0⟩).time ≤ t →
      put_target tl t + 59 = tl.data.length → (tl.put t c).1 = true) := by
  have hI : 0 < tl.index.length := List.length_pos.mpr hIne
  refine ⟨?_, ?_, ?_⟩
  · unfold timeline.put
    rw [if_pos hI]
    by_cases hT : (tl.index.getLastD ⟨0, 0⟩).time ≤ t
    · rw [if_pos hT]
      by_cases hP : put_target tl t < tl.data.length
      · rw [if_pos hP]
        by_cases hB :
            tl.data.length - put_target tl t < ADD_BUCKET_BACK_LIMIT
        · rw [if_pos hB]
          constructor
          · intro h; simp at h
          · intro h
            rcases h with h | ⟨h1, h2⟩
            · exact absurd h (Nat.not_lt.mpr hT)
            · exact absurd h2 (Nat.not_le.mpr hB)
        · rw [if_neg hB]
          constructor
          · intro _
            right
            exact ⟨hP, Nat.le_of_not_lt hB⟩
          · intro _; rfl
      · rw [if_neg hP]
        by_cases hG : put_target tl t = tl.data.length - 1 + 1
        · rw [if_pos hG]
          constructor
          · intro h; simp at h
          · intro h
            rcases h with h | ⟨h1, h2⟩
            · exact absurd h (Nat.not_lt.mpr hT)
            · exact absurd h1 hP
        · rw [if_neg hG]
          constructor
          · intro h; simp at h
          · intro h
            rcases h with h | ⟨h1, h2⟩
            · exact absurd h (Nat.not_lt.mpr hT)
            · exact absurd h1 hP
    · rw [if_neg hT]
      constructor
      · intro _
        left
        omega
      · intro _; rfl
  · intro hT h60
    unfold timeline.put
    rw [if_pos hI, if_pos hT, if_pos (by omega),
      if_neg (by simp only [ADD_BUCKET_BACK_LIMIT]; omega)]
  · intro hT h59
    unfold timeline.put
    rw [if_pos hI, if_pos hT, if_pos (by omega),
      if_pos (by simp only [ADD_BUCKET_BACK_LIMIT]; omega)]

theorem C3_reject_iff_witness :
    (((apply_puts (empty_timeline 10) [(100, 5)]).put 110 1).1 = false ↔
      (110 < ((apply_puts (empty_timeline 10) [(100, 5)]).index.getLastD
          ⟨0, 0⟩).time ∨
        (put_target (apply_puts (empty_timeline 10) [(100, 5)]) 110 <
            (apply_puts (empty_timeline 10) [(100, 5)]).data.length ∧
          ADD_BUCKET_BACK_LIMIT ≤
            (apply_puts (empty_timeline 10) [(100, 5)]).data.length -
              put_target (apply_puts (empty_timeline 10) [(100, 5)]) 110))) ∧
    (((apply_puts (empty_timeline 10) [(100, 5)]).index.getLastD
        ⟨0, 0⟩).time ≤ 110 →
      put_target (apply_puts (empty_timeline 10) [(100, 5)]) 110 + 60 =
        (apply_puts (empty_timeline 10) [(100, 5)]).data.length →
      ((apply_puts (empty_timeline 10) [(100, 5)]).put 110 1).1 = false) ∧
    (((apply_puts (empty_timeline 10) [(100, 5)]).index.getLastD
        ⟨0, 0⟩).time ≤ 110 →
      put_target (apply_puts (empty_timeline 10) [(100, 5)]) 110 + 59 =
        (apply_puts (empty_timeline 10) [(100, 5)]).data.length →
      ((apply_puts (empty_timeline 10) [(100, 5)]).put 110 1).1 = true) :=
  C3_reject_iff _ 110 1 (by decide) (by decide)

/-- C4 counterexample: with resolution 10 after `put(100,5), put(110,3)`,
both 109 and 110 resolve to existing buckets (positions 0 and 1), yet
`diff(109, 110)` takes the `n = 0` early return and reports `sum = 0`,
while `data[1].integral - data[0].integral = 3 ≠ 0`. -/
theorem C4_counterexample :
    (apply_puts (empty_timeline 10) [(100, 5), (110, 3)]).get 109 0 =
      some ⟨0, 109, 100, 0, 0, ⟨5, 5, 25⟩⟩ ∧
    (apply_puts (empty_timeline 10) [(100, 5), (110, 3)]).get 110 0 =
      some ⟨0, 110, 100, 0, 1, ⟨3, 8, 34⟩⟩ ∧
    (apply_puts (empty_timeline 10) [(100, 5), (110, 3)]).diff 109 110 0 =
      some ⟨109, 110, 10, 0, 0, 0, 0, 0, ⟨5, 5, 25⟩, ⟨3, 8, 34⟩⟩ ∧
    ((apply_puts (empty_timeline 10) [(100, 5), (110, 3)]).data.getD (0 + 1)
        zero_item).integral -
      ((apply_puts (empty_timeline 10) [(100, 5), (110, 3)]).data.getD (0 + 0)
        zero_item).integral = 3 ∧
    (0 : Nat) ≠ 3 := by decide

/-- C4 amended: for `a ≤ b` with both times resolving to existing buckets and
additionally `b - a ≥ resolution` (so the computed bucket count `n` is
nonzero), `diff(a, b).sum` equals `data[pos_b].integral -
data[pos_a].integral` at the resolved positions. -/
theorem C4_amended_diff_sum (tl : timeline) (a b io : Nat)
    (ar br : get_result) (hres : 0 < tl.resolution)
    (hne : ¬ tl.data.length = 0) (hab : a ≤ b)
    (hspan : tl.resolution ≤ b - a)
    (ha : tl.get a io = some ar) (hb : tl.get b io = some br)
    (hra : ar.range_time ≤ a) (hrb : br.range_time ≤ b) :
    ∃ d, tl.diff a b io = some d ∧
      d.sum = (tl.data.getD (br.pos + br.offset) zero_item).integral -
        (tl.data.getD (ar.pos + ar.offset) zero_item).integral := by
  obtain ⟨hqa, hva⟩ := get_elim tl a io ar ha
  obtain ⟨hqb, hvb⟩ := get_elim tl b io br hb
  have hva2 := hva hra
  have hvb2 := hvb hrb
  have hswap : ¬ b < a := Nat.not_lt.mpr hab
  simp only [timeline.diff]
  simp only [if_neg hswap]
  rw [if_neg hne, ha, hb]
  simp only []
  rw [hqb, Nat.max_eq_left hrb, hqa, Nat.min_eq_left hab]
  have hn : ¬ (b - a) / tl.resolution = 0 := by
    have h1 := (Nat.one_le_div_iff hres).mpr hspan
    omega
  rw [if_neg hn]
  refine ⟨_, rfl, ?_⟩
  rw [← hva2, ← hvb2]
  rfl

theorem C4_amended_diff_sum_witness :
    ∃ d, (apply_puts (empty_timeline 10) [(100, 5), (110, 3)]).diff
        100 110 0 = some d ∧
      d.sum = ((apply_puts (empty_timeline 10) [(100, 5), (110, 3)]).data.getD
          (0 + 1) zero_item).integral -
        ((apply_puts (empty_timeline 10) [(100, 5), (110, 3)]).data.getD
          (0 + 0) zero_item).integral :=
  C4_amended_diff_sum _ 100 110 0 ⟨0, 100, 100, 0, 0, ⟨5, 5, 25⟩⟩
    ⟨0, 110, 100, 0, 1, ⟨3, 8, 34⟩⟩ (by decide) (by decide) (by decide)
    (by decide) (by decide) (by decide) (by decide) (by decide)

/-- C5 counterexample: with resolution 10 after `put(100,5), put(110,3),
put(120,2)`, `diff(100, 130)` returns `sum = 5` (the difference of the
cumulative integrals of buckets 2 and 0), not the claimed `sum = 10`. -/
theorem C5_counterexample :
    ∃ d, (apply_puts (empty_timeline 10) [(100, 5), (110, 3), (120, 2)]).diff
        100 130 0 = some d ∧
      d.sum = 5 ∧ ¬ d.sum = 10 :=
  ⟨diff_buckets 100 130 10 0 ⟨5, 5, 25⟩ ⟨2, 10, 38⟩ 3, by rfl, by decide,
   by decide⟩

/-- C5 amended: with resolution 10, after `put(100,5), put(110,3),
put(120,2)` the call `diff(100, 130)` returns `sum = 5`, `n = 3`,
`mean = 5/3` and `variance = 13/3 - (5/3)²` (the `diff` subtraction is
anchored at bucket 0, so bucket 0's own value is not part of the sum). -/
theorem C5_amended_scenario :
    ∃ d, (apply_puts (empty_timeline 10) [(100, 5), (110, 3), (120, 2)]).diff
        100 130 0 = some d ∧
      d.sum = 5 ∧ d.n = 3 ∧ d.mean = 5 / 3 ∧
      d.variance = 13 / 3 - (5 / 3) * (5 / 3) := by
  refine ⟨diff_buckets 100 130 10 0 ⟨5, 5, 25⟩ ⟨2, 10, 38⟩ 3, by rfl,
    by decide, by decide, ?_, ?_⟩
  · show (diff_buckets 100 130 10 0 ⟨5, 5, 25⟩ ⟨2, 10, 38⟩ 3).mean = 5 / 3
    simp only [diff_buckets]
    norm_num
  · show (diff_buckets 100 130 10 0 ⟨5, 5, 25⟩ ⟨2, 10, 38⟩ 3).variance =
      13 / 3 - (5 / 3) * (5 / 3)
    simp only [diff_buckets]
    norm_num

/-- C6 counterexample: on an empty timeline with resolution 10, `put(100, 5)`
is accepted, yet an immediately following `diff(100, 110)` returns `sum = 0`,
not a sum that is at least `c = 5`: the window `[t, t + resolution)` measures
the bucket after the one containing `t`. -/
theorem C6_counterexample :
    ((empty_timeline 10).put 100 5).1 = true ∧
    ∃ d, (((empty_timeline 10).put 100 5).2).diff 100 110 0 = some d ∧
      d.sum = 0 ∧ ¬ (5 : Nat) ≤ d.sum :=
  ⟨by decide, diff_buckets 100 110 10 0 ⟨5, 5, 25⟩ ⟨5, 5, 25⟩ 1, by rfl,
   by decide, by decide⟩

/-- C6 amended: for every timeline reached by puts from empty and every
accepted `put(t, c)` with `resolution ≤ t`, an immediately following
`diff(t - resolution, t)` (the window ending at `t`, rather than starting at
`t`) returns a sum equal to `c` plus the value the bucket containing `t` held
before the put; in particular the sum is at least `c`, with equality when no
other put has landed in that bucket. -/
theorem C6_amended_readback (res : Nat) (ps : List (Nat × Nat))
    (t c io : Nat) (hres : 0 < res) (ht : res ≤ t) (tl2 : timeline)
    (hput : (apply_puts (empty_timeline res) ps).put t c = (true, tl2)) :
    ∃ d, tl2.diff (t - res) t io = some d ∧
      d.sum = c + ((apply_puts (empty_timeline res) ps).data.getD
        (put_target (apply_puts (empty_timeline res) ps) t)
        zero_item).value ∧
      c ≤ d.sum := by
  have hr : (apply_puts (empty_timeline res) ps).resolution = res := by
    rw [resolution_apply_puts]
    rfl
  obtain ⟨d, hd, hsum⟩ := put_diff_back (apply_puts (empty_timeline res) ps)
    (Inv_apply_puts _ ps (Inv_empty res)) t c io
    (by rw [hr]; exact hres) (by rw [hr]; exact ht) tl2 hput
  rw [hr] at hd
  exact ⟨d, hd, hsum, by omega⟩

theorem C6_amended_readback_witness :
    ∃ d, (⟨10, [⟨5, 5, 25⟩], [⟨100, 0⟩]⟩ : timeline).diff (100 - 10)
        100 0 = some d ∧
      d.sum = 5 + ((apply_puts (empty_timeline 10) []).data.getD
        (put_target (apply_puts (empty_timeline 10) []) 100)
        zero_item).value ∧
      5 ≤ d.sum :=
  C6_amended_readback 10 [] 100 5 0 (by decide) (by decide)
    ⟨10, [⟨5, 5, 25⟩], [⟨100, 0⟩]⟩ (by decide)

/-- C7 counterexample: the first put on an empty timeline stores the raw
timestamp as the anchor time: `put(105, 5)` with resolution 10 creates the
anchor `{105, 0}`, and 105 is not a multiple of 10. -/
theorem C7_counterexample :
    ((empty_timeline 10).put 105 5).1 = true ∧
    ((empty_timeline 10).put 105 5).2.index = [⟨105, 0⟩] ∧
    ¬ 105 % 10 = 0 := by decide

/-- C7 amended: after every committed mutation every anchor's time is
congruent to the first anchor's time modulo the resolution (the first anchor
stores the raw timestamp of the first put, not a quantized multiple of the
resolution; gap anchors advance from it by whole multiples of the
resolution). -/
theorem C7_amended_anchor_mod (res : Nat) (ps : List (Nat × Nat)) :
    ∀ a ∈ (apply_puts (empty_timeline res) ps).index,
      a.time % res =
        ((apply_puts (empty_timeline res) ps).index.headD ⟨0, 0⟩).time %
          res := by
  intro a ha
  have h := (Inv_apply_puts _ ps (Inv_empty res)).modres a ha
  have hr : (apply_puts (empty_timeline res) ps).resolution = res := by
    rw [resolution_apply_puts]
    rfl
  rw [hr] at h
  exact h

theorem C7_amended_anchor_mod_witness :
    (⟨305, 1⟩ : index_item) ∈
      (apply_puts (empty_timeline 10) [(105, 5), (307, 7)]).index ∧
    (305 : Nat) % 10 =
      ((apply_puts (empty_timeline 10) [(105, 5), (307, 7)]).index.headD
        ⟨0, 0⟩).time % 10 :=
  ⟨by decide,
   C7_amended_anchor_mod 10 [(105, 5), (307, 7)] ⟨305, 1⟩ (by decide)⟩

/-- C8: on an empty timeline with resolution 10, `put(100, 5)` is accepted
and `summary()` then returns `from = 100`, `to = 110`, `sum = 5`,
`mean = 5`, `variance = 0`, `n = 1`. -/
theorem C8_first_put_summary :
    ((empty_timeline 10).put 100 5).1 = true ∧
    ∃ s, ((empty_timeline 10).put 100 5).2.summary = some s ∧
      s.from_time = 100 ∧ s.to_time = 110 ∧ s.sum = 5 ∧ s.mean = 5 ∧
      s.variance = 0 ∧ s.n = 1 := by
  refine ⟨by decide, ⟨100, 110, 10,
    (diff_buckets 100 110 10 0 zero_item ⟨5, 5, 25⟩ 1).sum,
    (diff_buckets 100 110 10 0 zero_item ⟨5, 5, 25⟩ 1).mean,
    (diff_buckets 100 110 10 0 zero_item ⟨5, 5, 25⟩ 1).variance, 1⟩,
    by rfl, rfl, rfl, by decide, ?_, ?_, rfl⟩
  · show (diff_buckets 100 110 10 0 zero_item ⟨5, 5, 25⟩ 1).mean = 5
    simp only [diff_buckets, zero_item]
    norm_num
  · show (diff_buckets 100 110 10 0 zero_item ⟨5, 5, 25⟩ 1).variance = 0
    simp only [diff_buckets, zero_item]
    norm_num

/-- C9: on a non-empty timeline reached by puts, `get(t, hint)` for `t`
strictly before the first anchor's time returns the zero bucket `{0, 0, 0}`
with `range_time` equal to the first anchor's time. -/
theorem C9_get_before_beginning (res : Nat) (ps : List (Nat × Nat))
    (t hint : Nat)
    (hne : (apply_puts (empty_timeline res) ps).data ≠ [])
    (hlt : t < ((apply_puts (empty_timeline res) ps).index.headD
      ⟨0, 0⟩).time) :
    ∃ r, (apply_puts (empty_timeline res) ps).get t hint = some r ∧
      r.value = zero_item ∧
      r.range_time = ((apply_puts (empty_timeline res) ps).index.headD
        ⟨0, 0⟩).time := by
  have hInv := Inv_apply_puts (empty_timeline res) ps (Inv_empty res)
  have hIne : (apply_puts (empty_timeline res) ps).index ≠ [] := by
    intro hh
    exact hne (hInv.both.mpr hh)
  cases hidx : (apply_puts (empty_timeline res) ps).index with
  | nil => exact absurd hidx hIne
  | cons a0 rest =>
    have hh : (apply_puts (empty_timeline res) ps).index.headD ⟨0, 0⟩ =
        a0 := by rw [hidx]; rfl
    have hp0 : a0.pos = 0 := by
      have h3 := hInv.headpos hIne
      rw [hh] at h3
      exact h3
    have hget := get_before_first (apply_puts (empty_timeline res) ps) t
      hint a0 rest hidx (by rw [hh] at hlt; exact hlt) hp0
      (List.length_pos.mpr hne)
    refine ⟨_, hget, rfl, ?_⟩
    rfl

theorem C9_get_before_beginning_witness :
    ∃ r, (apply_puts (empty_timeline 10) [(100, 5)]).get 50 0 = some r ∧
      r.value = zero_item ∧
      r.range_time = ((apply_puts (empty_timeline 10) [(100, 5)]).index.headD
        ⟨0, 0⟩).time :=
  C9_get_before_beginning 10 [(100, 5)] 50 0 (by decide) (by decide)

/-- C10: calling `get` on a timeline whose data vector is empty always hits
the fatal `REQUIRE_LESS(r.pos, size)` precondition of `clamp` (no position is
strictly below 0), modelled as `none`, for every time and hint; `diff` and
`summary` instead guard the empty case before reading and return results. -/
theorem C10_get_empty_fatal (tl : timeline) (t hint a b : Nat)
    (hd : tl.data = []) :
    tl.get t hint = none ∧
    (∃ d, tl.diff a b hint = some d) ∧
    (tl.index = [] → ∃ s, tl.summary = some s) := by
  refine ⟨?_, ?_, ?_⟩
  · simp only [timeline.get]
    have hcl : clamp (find_pos tl.index tl.resolution t) tl.data.length =
        none := by
      unfold clamp
      rw [if_neg (by rw [hd]; simp)]
    rw [hcl]
  · simp only [timeline.diff]
    rw [if_pos (by rw [hd]; rfl)]
    exact ⟨_, rfl⟩
  · intro hi
    unfold timeline.summary
    rw [if_pos (by rw [hi]; rfl)]
    exact ⟨_, rfl⟩

theorem C10_get_empty_fatal_witness :
    (empty_timeline 10).get 5 0 = none ∧
    (∃ d, (empty_timeline 10).diff 1 2 0 = some d) ∧
    ((empty_timeline 10).index = [] →
      ∃ s, (empty_timeline 10).summary = some s) :=
  C10_get_empty_fatal (empty_timeline 10) 5 0 1 2 rfl

end henhouse
